import Mathlib

/-!
Shallow embedding of the process-monitor session state machine of
`src/app.rs` and the key dispatch of `src/ui.rs`.

Modelling conventions:
* `Instant` is modelled as a `Nat` tick count; every operation that reads
  `Instant::now()` in the source takes the current tick `now : Nat` as an
  explicit argument.  `t.elapsed()` becomes `now - t` (truncated `Nat`
  subtraction; real monotonic clocks never run backwards).
* `f64` memory values are modelled as `Option ℚ`, with `none` playing the
  role of NaN: `partial_cmp` returns `none` exactly when one side is NaN,
  and every representable non-NaN `f64` is a rational number.
* The external collaborators (the snapshot provider `get_system_processes`
  and the `kill` command) are parameters: `refresh` takes the freshly pulled
  list, `kill_selected_process` takes the collaborator's result.
* Rust's `sort_by` is a stable sort; it is modelled by a stable insertion
  sort (`sortCmp`), which agrees with any stable sort for the comparators
  in use.
-/

/-- `SortColumn` from `src/app.rs`. -/
inductive SortColumn
  | Pid
  | Name
  | Memory
deriving DecidableEq, Repr

/-- `InputMode` from `src/app.rs`. -/
inductive InputMode
  | Normal
  | Search
  | ConfirmKill
deriving DecidableEq, Repr

/-- The colours of `ratatui::prelude::Color` used by the app: `Green` marks
informational messages and `Red` error messages. -/
inductive Color
  | Green
  | Red
deriving DecidableEq, Repr

/-- `ProcessInfo` from `src/system_data.rs`; `memory_mb : Option ℚ` models
the `f64` field, `none` standing for NaN. -/
structure ProcessInfo where
  pid : String
  name : String
  memory_mb : Option ℚ
deriving DecidableEq, Repr

instance : Inhabited ProcessInfo := ⟨⟨"", "", some 0⟩⟩

/-- `REFRESH_RATE` from `src/app.rs`. -/
def REFRESH_RATE : Nat := 2

/-- The `App` struct from `src/app.rs`.  `table_selected` is the
`table_state.selected()` component of the ratatui `TableState` (the only
part of `TableState` the app logic reads or writes). -/
structure App where
  processes : List ProcessInfo
  table_selected : Option Nat
  last_refresh : Nat
  sort_column : SortColumn
  sort_ascending : Bool
  input_mode : InputMode
  search_query : String
  filtered_processes : List Nat
  message : Option (String × Color)
  message_time : Option Nat
deriving DecidableEq, Repr

/-- Rust `Ord::cmp` on a linearly ordered key (`u32`, `String`, ...). -/
def cmpOf {κ : Type _} [LinearOrder κ] (x y : κ) : Ordering :=
  if x < y then .lt else if x = y then .eq else .gt

/-- Rust `f64::partial_cmp`: `none` exactly when one side is NaN. -/
def partialCmpQ (a b : Option ℚ) : Option Ordering :=
  match a, b with
  | some x, some y => some (cmpOf x y)
  | _, _ => none

/-- Rust `u32::from_str`: an optional leading `+`, then one or more ASCII
digits, value at most `u32::MAX`. -/
def parseU32 (s : String) : Option Nat :=
  let chars := s.data
  let digits := match chars with
    | '+' :: rest => rest
    | cs => cs
  if digits.isEmpty then none
  else if digits.all (fun c => c.isDigit) then
    let v := digits.foldl (fun acc c => acc * 10 + (c.toNat - 48)) 0
    if v ≤ 4294967295 then some v else none
  else none

/-- Rust `str::contains` helper: is `needle` a prefix of `l`? -/
def prefixOfList : List Char → List Char → Bool
  | [], _ => true
  | _ :: _, [] => false
  | x :: xs, y :: ys => x = y && prefixOfList xs ys

/-- Rust `str::contains(&needle)`: substring containment. -/
def containsSub (hay needle : List Char) : Bool :=
  match hay with
  | [] => needle.isEmpty
  | _ :: cs => prefixOfList needle hay || containsSub cs needle

/-- Stable insertion into a list sorted by a Rust-style comparator: the new
element goes in front of the first element it does not compare `Greater`
to, so earlier input elements stay ahead of later equal-key ones. -/
def insertCmp {α : Type _} (cmp : α → α → Ordering) (x : α) : List α → List α
  | [] => [x]
  | y :: ys => if cmp x y = Ordering.gt then y :: insertCmp cmp x ys else x :: y :: ys

/-- Stable sort by a Rust-style comparator, modelling `slice::sort_by`. -/
def sortCmp {α : Type _} (cmp : α → α → Ordering) : List α → List α
  | [] => []
  | x :: xs => insertCmp cmp x (sortCmp cmp xs)

/-- The per-column comparator closures of `App::sort_processes`
(`src/app.rs` lines 63-93).  Rust's `String` order is lexicographic on
bytes, which for valid UTF-8 coincides with Lean's lexicographic order on
`String`. -/
def procCmp (col : SortColumn) (asc : Bool) (a b : ProcessInfo) : Ordering :=
  match col with
  | .Pid =>
      let a_num := (parseU32 a.pid).getD 0
      let b_num := (parseU32 b.pid).getD 0
      if asc then cmpOf a_num b_num else cmpOf b_num a_num
  | .Name =>
      if asc then cmpOf a.name b.name else cmpOf b.name a.name
  | .Memory =>
      if asc then (partialCmpQ a.memory_mb b.memory_mb).getD Ordering.eq
      else (partialCmpQ b.memory_mb a.memory_mb).getD Ordering.eq

/-- `App::sort_processes` (`src/app.rs` lines 63-93). -/
def sortProcesses (s : App) : App :=
  { s with processes := sortCmp (procCmp s.sort_column s.sort_ascending) s.processes }

/-- Rust `str::to_lowercase`, modelled per character with Lean's ASCII
`Char.toLower` (the two agree on ASCII, which covers pids and process
names in practice). -/
def lowerChars (s : String) : List Char := s.data.map Char.toLower

/-- The filter predicate of `App::apply_filters`: name or pid, lowercased,
contains the already-lowercased query. -/
def matchesQuery (p : ProcessInfo) (query : List Char) : Bool :=
  containsSub (lowerChars p.name) query || containsSub (lowerChars p.pid) query

/-- The `filtered_processes` computation of `App::apply_filters`
(`src/app.rs` lines 106-120): all indices for an empty query, otherwise the
indices whose record matches the lowercased query. -/
def filteredIndices (procs : List ProcessInfo) (q : String) : List Nat :=
  if q = "" then List.range procs.length
  else
    let query := lowerChars q
    ((procs.enum.filter (fun ip => matchesQuery ip.2 query)).map Prod.fst)

/-- `App::apply_filters` (`src/app.rs` lines 106-131): recompute
`filtered_processes`, then clamp the selection. -/
def applyFilters (s : App) : App :=
  let filtered := filteredIndices s.processes s.search_query
  let sel := match s.table_selected with
    | some selected =>
        if filtered.isEmpty then none
        else if selected ≥ filtered.length then some (filtered.length - 1)
        else some selected
    | none => none
  { s with filtered_processes := filtered, table_selected := sel }

/-- `App::selected_process` (`src/app.rs` lines 218-224).  The outer lookup
models `.get(i)`; the inner direct index `self.processes[idx]` is modelled
by `get?` as well, its in-boundedness being the safety property proved
below. -/
def selectedProcess (s : App) : Option ProcessInfo :=
  s.table_selected.bind fun i =>
    (s.filtered_processes.get? i).bind fun idx => s.processes.get? idx

/-- `App::new` (`src/app.rs` lines 43-61), with the provider's snapshot and
the construction time as parameters. -/
def appNew (now : Nat) (procs : List ProcessInfo) : App :=
  let app : App :=
    { processes := procs
      table_selected := none
      last_refresh := now
      sort_column := .Memory
      sort_ascending := false
      input_mode := .Normal
      search_query := ""
      filtered_processes := []
      message := none
      message_time := none }
  let app := applyFilters (sortProcesses app)
  { app with table_selected := some 0 }

/-- `App::toggle_sort` (`src/app.rs` lines 95-104). -/
def toggleSort (column : SortColumn) (s : App) : App :=
  let s :=
    if s.sort_column = column then { s with sort_ascending := !s.sort_ascending }
    else { s with sort_column := column, sort_ascending := true }
  applyFilters (sortProcesses s)

/-- Rust `Iterator::position`: index of the first element satisfying the
predicate. -/
def positionIdx {α : Type _} (p : α → Bool) : List α → Option Nat
  | [] => none
  | x :: xs => if p x then some 0 else (positionIdx p xs).map (· + 1)

/-- The snapshot-pull block of `App::refresh` (`src/app.rs` lines 134-151):
fires only when the refresh interval has elapsed; pulls, re-sorts,
re-filters, stamps `last_refresh`, then tries to restore the selection by
pid. -/
def pulledState (now : Nat) (pull : List ProcessInfo) (s : App) : App :=
  { applyFilters (sortProcesses { s with processes := pull }) with last_refresh := now }

/-- The "maintain selection by PID" step of `App::refresh` (`src/app.rs`
lines 142-150). -/
def restoreSelection (pid : String) (s : App) : App :=
  match positionIdx (fun i => (s.processes.getD i default).pid = pid) s.filtered_processes with
  | some index => { s with table_selected := some index }
  | none => s

def refreshPull (now : Nat) (pull : List ProcessInfo) (s : App) : App :=
  if REFRESH_RATE ≤ now - s.last_refresh then
    match (selectedProcess s).map (·.pid) with
    | some pid => restoreSelection pid (pulledState now pull s)
    | none => pulledState now pull s
  else s

/-- The message-expiry block of `App::refresh` (`src/app.rs` lines
153-159). -/
def clearMessage (now : Nat) (s : App) : App :=
  match s.message_time with
  | some time => if 3 < now - time then { s with message := none, message_time := none } else s
  | none => s

/-- `App::refresh` (`src/app.rs` lines 133-160), with the provider's fresh
snapshot `pull` and the tick time `now` as parameters. -/
def refresh (now : Nat) (pull : List ProcessInfo) (s : App) : App :=
  clearMessage now (refreshPull now pull s)

/-- `App::next` (`src/app.rs` lines 162-171). -/
def next (s : App) : App :=
  if s.filtered_processes.isEmpty then s
  else
    let i := match s.table_selected with
      | some i => (i + 1) % s.filtered_processes.length
      | none => 0
    { s with table_selected := some i }

/-- `App::previous` (`src/app.rs` lines 173-182). -/
def previous (s : App) : App :=
  if s.filtered_processes.isEmpty then s
  else
    let i := match s.table_selected with
      | some i => (i + s.filtered_processes.length - 1) % s.filtered_processes.length
      | none => 0
    { s with table_selected := some i }

/-- `App::set_message` (`src/app.rs` lines 213-216). -/
def setMessage (msg : String) (color : Color) (now : Nat) (s : App) : App :=
  { s with message := some (msg, color), message_time := some now }

/-- `App::kill_selected_process` (`src/app.rs` lines 184-211), with the
Process Terminator's outcome `killResult` and the time `now` as parameters.
`Instant::now().checked_sub(d)` becomes `if d ≤ now then now - d else` the
`unwrap_or(Instant::now())` fallback. -/
def killSelectedProcess (now : Nat) (killResult : Except String Unit) (s : App) : App :=
  let s :=
    match selectedProcess s with
    | some process =>
        let pid := (parseU32 process.pid).getD 0
        if 0 < pid then
          match killResult with
          | .ok _ =>
              let s := setMessage ("Process " ++ process.name ++ " killed") Color.Green now s
              { s with last_refresh :=
                  if REFRESH_RATE + 1 ≤ now then now - (REFRESH_RATE + 1) else now }
          | .error e =>
              setMessage ("Failed to kill process: " ++ e) Color.Red now s
        else s
    | none => s
  { s with input_mode := InputMode.Normal }

/-- The key codes `run_app` in `src/ui.rs` dispatches on. -/
inductive KeyCode
  | Char (c : Char)
  | Down
  | Up
  | Esc
  | Enter
  | Backspace
  | Other
deriving DecidableEq, Repr

/-- The keypress dispatch of `run_app` (`src/ui.rs` lines 25-65).  Returns
`none` on quit.  `killResult` is the Terminator outcome consumed if the key
triggers the kill. -/
def handleKey (key : KeyCode) (now : Nat) (killResult : Except String Unit)
    (s : App) : Option App :=
  match s.input_mode with
  | .Normal =>
      match key with
      | .Char 'q' => none
      | .Down => some (next s)
      | .Up => some (previous s)
      | .Char 'k' => some { s with input_mode := .ConfirmKill }
      | .Char '/' => some { s with input_mode := .Search, search_query := "" }
      | .Char 'p' => some (toggleSort .Pid s)
      | .Char 'n' => some (toggleSort .Name s)
      | .Char 'm' => some (toggleSort .Memory s)
      | _ => some s
  | .Search =>
      match key with
      | .Esc => some (applyFilters { s with input_mode := .Normal, search_query := "" })
      | .Enter => some (applyFilters { s with input_mode := .Normal })
      | .Backspace => some (applyFilters { s with search_query := s.search_query.dropRight 1 })
      | .Char c => some (applyFilters { s with search_query := s.search_query.push c })
      | _ => some s
  | .ConfirmKill =>
      match key with
      | .Char 'y' => some (killSelectedProcess now killResult s)
      | _ => some { s with input_mode := .Normal }

/-- The states reachable by the `run_app` loop of `src/ui.rs`: construction,
then any interleaving of refresh ticks and dispatched keypresses. -/
inductive Reachable : App → Prop
  | init (now : Nat) (procs : List ProcessInfo) : Reachable (appNew now procs)
  | tick (now : Nat) (pull : List ProcessInfo) {s : App} :
      Reachable s → Reachable (refresh now pull s)
  | key (k : KeyCode) (now : Nat) (kr : Except String Unit) {s s' : App} :
      Reachable s → handleKey k now kr s = some s' → Reachable s'

/-! ### Properties of the comparator primitives -/

theorem cmpOf_eq_gt_iff {κ : Type _} [LinearOrder κ] {x y : κ} :
    cmpOf x y = .gt ↔ y < x := by
  unfold cmpOf
  rcases lt_trichotomy x y with h | h | h
  · simp [h, asymm h]
  · simp [h, lt_irrefl]
  · simp [not_lt_of_gt h, ne_of_gt h, h]

theorem cmpOf_ne_gt_iff {κ : Type _} [LinearOrder κ] {x y : κ} :
    cmpOf x y ≠ .gt ↔ x ≤ y := by
  rw [Ne, cmpOf_eq_gt_iff, not_lt]

theorem cmpOf_eq_eq_iff {κ : Type _} [LinearOrder κ] {x y : κ} :
    cmpOf x y = .eq ↔ x = y := by
  unfold cmpOf
  rcases lt_trichotomy x y with h | h | h
  · simp [h, ne_of_lt h]
  · simp [h]
  · simp [not_lt_of_gt h, ne_of_gt h, Ne.symm (ne_of_gt h)]

theorem cmpOf_asymm {κ : Type _} [LinearOrder κ] {x y : κ}
    (h : cmpOf x y = .gt) : cmpOf y x ≠ .gt := by
  rw [cmpOf_eq_gt_iff] at h
  rw [cmpOf_ne_gt_iff]
  exact le_of_lt h

theorem cmpOf_trans3 {κ : Type _} [LinearOrder κ] {x y z : κ}
    (h1 : cmpOf x y ≠ .gt) (h2 : cmpOf y z ≠ .gt) : cmpOf x z ≠ .gt := by
  rw [cmpOf_ne_gt_iff] at h1 h2 ⊢
  exact le_trans h1 h2

theorem cmpOf_stab {κ : Type _} [LinearOrder κ] {x y k : κ}
    (h1 : cmpOf x k = .eq) (h2 : cmpOf x y = .gt) : cmpOf y k ≠ .eq := by
  intro hyk
  rw [cmpOf_eq_eq_iff] at h1 hyk
  rw [cmpOf_eq_gt_iff] at h2
  exact absurd (h1 ▸ hyk ▸ h2) (lt_irrefl _)

theorem cmpOf_stab' {κ : Type _} [LinearOrder κ] {x y k : κ}
    (h1 : cmpOf k x = .eq) (h2 : cmpOf y x = .gt) : cmpOf k y ≠ .eq := by
  intro hky
  rw [cmpOf_eq_eq_iff] at h1 hky
  rw [cmpOf_eq_gt_iff] at h2
  exact absurd (h1 ▸ hky ▸ h2) (lt_irrefl _)

/-- The numeric key used by the Pid comparator. -/
def pidKey (p : ProcessInfo) : Nat := (parseU32 p.pid).getD 0

theorem procCmp_pid (asc : Bool) (a b : ProcessInfo) :
    procCmp .Pid asc a b
      = if asc then cmpOf (pidKey a) (pidKey b) else cmpOf (pidKey b) (pidKey a) := rfl

theorem procCmp_name (asc : Bool) (a b : ProcessInfo) :
    procCmp .Name asc a b
      = if asc then cmpOf a.name b.name else cmpOf b.name a.name := rfl

theorem procCmp_memory (asc : Bool) (a b : ProcessInfo) {x y : ℚ}
    (ha : a.memory_mb = some x) (hb : b.memory_mb = some y) :
    procCmp .Memory asc a b = if asc then cmpOf x y else cmpOf y x := by
  simp [procCmp, ha, hb, partialCmpQ]

theorem procCmp_memory_gt {asc : Bool} {a b : ProcessInfo}
    (h : procCmp .Memory asc a b = .gt) :
    ∃ x y, a.memory_mb = some x ∧ b.memory_mb = some y := by
  rcases hx : a.memory_mb with _ | x <;> rcases hy : b.memory_mb with _ | y <;>
    simp [procCmp, partialCmpQ, hx, hy] at h ⊢

theorem procCmp_asymm {col : SortColumn} {asc : Bool} {a b : ProcessInfo}
    (h : procCmp col asc a b = .gt) : procCmp col asc b a ≠ .gt := by
  cases col with
  | Pid =>
      rw [procCmp_pid] at h ⊢
      cases asc <;> simp only [if_true, if_false, Bool.false_eq_true, ite_true, ite_false] at h ⊢ <;>
        exact cmpOf_asymm h
  | Name =>
      rw [procCmp_name] at h ⊢
      cases asc <;> simp only [ite_true, ite_false, Bool.false_eq_true] at h ⊢ <;>
        exact cmpOf_asymm h
  | Memory =>
      obtain ⟨x, y, hx, hy⟩ := procCmp_memory_gt h
      rw [procCmp_memory asc a b hx hy] at h
      rw [procCmp_memory asc b a hy hx]
      cases asc <;> simp only [ite_true, ite_false, Bool.false_eq_true] at h ⊢ <;>
        exact cmpOf_asymm h

theorem procCmp_trans {col : SortColumn} {asc : Bool} {a b c : ProcessInfo}
    (hmem : col = .Memory →
      a.memory_mb ≠ none ∧ b.memory_mb ≠ none ∧ c.memory_mb ≠ none)
    (h1 : procCmp col asc a b ≠ .gt) (h2 : procCmp col asc b c ≠ .gt) :
    procCmp col asc a c ≠ .gt := by
  cases col with
  | Pid =>
      rw [procCmp_pid] at h1 h2 ⊢
      cases asc <;> simp only [ite_true, ite_false, Bool.false_eq_true] at h1 h2 ⊢
      · exact cmpOf_trans3 h2 h1
      · exact cmpOf_trans3 h1 h2
  | Name =>
      rw [procCmp_name] at h1 h2 ⊢
      cases asc <;> simp only [ite_true, ite_false, Bool.false_eq_true] at h1 h2 ⊢
      · exact cmpOf_trans3 h2 h1
      · exact cmpOf_trans3 h1 h2
  | Memory =>
      obtain ⟨ha, hb, hc⟩ := hmem rfl
      obtain ⟨x, hx⟩ := Option.ne_none_iff_exists'.mp ha
      obtain ⟨y, hy⟩ := Option.ne_none_iff_exists'.mp hb
      obtain ⟨z, hz⟩ := Option.ne_none_iff_exists'.mp hc
      rw [procCmp_memory asc a b hx hy] at h1
      rw [procCmp_memory asc b c hy hz] at h2
      rw [procCmp_memory asc a c hx hz]
      cases asc <;> simp only [ite_true, ite_false, Bool.false_eq_true] at h1 h2 ⊢
      · exact cmpOf_trans3 h2 h1
      · exact cmpOf_trans3 h1 h2

theorem procCmp_stab {col : SortColumn} {asc : Bool} {a b k : ProcessInfo}
    (hmem : col = .Memory →
      a.memory_mb ≠ none ∧ b.memory_mb ≠ none ∧ k.memory_mb ≠ none)
    (h1 : procCmp col asc a k = .eq) (h2 : procCmp col asc a b = .gt) :
    ¬ procCmp col asc b k = .eq := by
  cases col with
  | Pid =>
      rw [procCmp_pid] at h1 h2 ⊢
      cases asc <;> simp only [ite_true, ite_false, Bool.false_eq_true] at h1 h2 ⊢
      · exact cmpOf_stab' h1 h2
      · exact cmpOf_stab h1 h2
  | Name =>
      rw [procCmp_name] at h1 h2 ⊢
      cases asc <;> simp only [ite_true, ite_false, Bool.false_eq_true] at h1 h2 ⊢
      · exact cmpOf_stab' h1 h2
      · exact cmpOf_stab h1 h2
  | Memory =>
      obtain ⟨ha, hb, hk⟩ := hmem rfl
      obtain ⟨x, hx⟩ := Option.ne_none_iff_exists'.mp ha
      obtain ⟨y, hy⟩ := Option.ne_none_iff_exists'.mp hb
      obtain ⟨z, hz⟩ := Option.ne_none_iff_exists'.mp hk
      rw [procCmp_memory asc a k hx hz] at h1
      rw [procCmp_memory asc a b hx hy] at h2
      rw [procCmp_memory asc b k hy hz]
      cases asc <;> simp only [ite_true, ite_false, Bool.false_eq_true] at h1 h2 ⊢
      · exact cmpOf_stab' h1 h2
      · exact cmpOf_stab h1 h2

/-! ### Generic properties of the stable insertion sort -/

theorem insertCmp_perm {α : Type _} (cmp : α → α → Ordering) (x : α) (l : List α) :
    List.Perm (insertCmp cmp x l) (x :: l) := by
  induction l with
  | nil => simp [insertCmp]
  | cons y ys ih =>
      unfold insertCmp
      split
      · exact (ih.cons y).trans (List.Perm.swap x y ys)
      · exact List.Perm.refl _

theorem sortCmp_perm {α : Type _} (cmp : α → α → Ordering) (l : List α) :
    List.Perm (sortCmp cmp l) l := by
  induction l with
  | nil => exact List.Perm.refl _
  | cons x xs ih => exact (insertCmp_perm cmp x (sortCmp cmp xs)).trans (ih.cons x)

theorem mem_insertCmp {α : Type _} {cmp : α → α → Ordering} {x a : α} {l : List α} :
    a ∈ insertCmp cmp x l ↔ a = x ∨ a ∈ l := by
  rw [(insertCmp_perm cmp x l).mem_iff, List.mem_cons]

theorem mem_sortCmp {α : Type _} {cmp : α → α → Ordering} {a : α} {l : List α} :
    a ∈ sortCmp cmp l ↔ a ∈ l := (sortCmp_perm cmp l).mem_iff

theorem sortCmp_length {α : Type _} (cmp : α → α → Ordering) (l : List α) :
    (sortCmp cmp l).length = l.length := (sortCmp_perm cmp l).length_eq

theorem insertCmp_pairwise {α : Type _} {cmp : α → α → Ordering} {x : α} {l : List α}
    (hasym : ∀ y ∈ l, cmp x y = .gt → cmp y x ≠ .gt)
    (htrans : ∀ y ∈ l, ∀ z ∈ l, cmp x y ≠ .gt → cmp y z ≠ .gt → cmp x z ≠ .gt)
    (hl : l.Pairwise (fun a b => cmp a b ≠ .gt)) :
    (insertCmp cmp x l).Pairwise (fun a b => cmp a b ≠ .gt) := by
  induction l with
  | nil => simp [insertCmp]
  | cons y ys ih =>
      rw [List.pairwise_cons] at hl
      obtain ⟨hy, hys⟩ := hl
      unfold insertCmp
      split
      case isTrue h =>
        rw [List.pairwise_cons]
        constructor
        · intro z hz
          rcases mem_insertCmp.mp hz with rfl | hz'
          · exact hasym y (List.mem_cons_self y ys) h
          · exact hy z hz'
        · exact ih (fun y' h' => hasym y' (List.mem_cons_of_mem _ h'))
            (fun y' h' z' h'' => htrans y' (List.mem_cons_of_mem _ h')
              z' (List.mem_cons_of_mem _ h'')) hys
      case isFalse h =>
        rw [List.pairwise_cons]
        refine ⟨?_, List.Pairwise.cons hy hys⟩
        intro z hz
        rcases List.mem_cons.mp hz with rfl | hz'
        · exact h
        · exact htrans y (List.mem_cons_self y ys) z (List.mem_cons_of_mem _ hz') h (hy z hz')

theorem sortCmp_pairwise {α : Type _} {cmp : α → α → Ordering} {l : List α}
    (hasym : ∀ a ∈ l, ∀ b ∈ l, cmp a b = .gt → cmp b a ≠ .gt)
    (htrans : ∀ a ∈ l, ∀ b ∈ l, ∀ c ∈ l, cmp a b ≠ .gt → cmp b c ≠ .gt → cmp a c ≠ .gt) :
    (sortCmp cmp l).Pairwise (fun a b => cmp a b ≠ .gt) := by
  induction l with
  | nil => simp [sortCmp]
  | cons x xs ih =>
      unfold sortCmp
      apply insertCmp_pairwise
      · intro y hy
        exact hasym x (List.mem_cons_self x xs) y
          (List.mem_cons_of_mem _ (mem_sortCmp.mp hy))
      · intro y hy z hz
        exact htrans x (List.mem_cons_self x xs)
          y (List.mem_cons_of_mem _ (mem_sortCmp.mp hy))
          z (List.mem_cons_of_mem _ (mem_sortCmp.mp hz))
      · exact ih
          (fun a ha b hb => hasym a (List.mem_cons_of_mem _ ha) b (List.mem_cons_of_mem _ hb))
          (fun a ha b hb c hc => htrans a (List.mem_cons_of_mem _ ha)
            b (List.mem_cons_of_mem _ hb) c (List.mem_cons_of_mem _ hc))

theorem insertCmp_filter {α : Type _} {cmp : α → α → Ordering} {x : α} {l : List α}
    (P : α → Bool)
    (hstab : P x = true → ∀ y ∈ l, cmp x y = .gt → P y = false) :
    (insertCmp cmp x l).filter P = if P x then x :: l.filter P else l.filter P := by
  induction l with
  | nil => cases hPx : P x <;> simp [insertCmp, List.filter, hPx]
  | cons y ys ih =>
      unfold insertCmp
      split
      case isTrue h =>
        have ih' := ih (fun hx y' hy' => hstab hx y' (List.mem_cons_of_mem _ hy'))
        cases hPx : P x with
        | true =>
            have hPy : P y = false := hstab hPx y (List.mem_cons_self y ys) h
            simp [List.filter_cons, hPy, hPx, ih']
        | false =>
            simp [List.filter_cons, hPx, ih']
      case isFalse h =>
        cases hPx : P x <;> simp [List.filter_cons, hPx]

theorem sortCmp_filter {α : Type _} {cmp : α → α → Ordering} {l : List α}
    (P : α → Bool)
    (hstab : ∀ a ∈ l, P a = true → ∀ b ∈ l, cmp a b = .gt → P b = false) :
    (sortCmp cmp l).filter P = l.filter P := by
  induction l with
  | nil => rfl
  | cons x xs ih =>
      unfold sortCmp
      rw [insertCmp_filter P
        (fun hx y hy hgt => hstab x (List.mem_cons_self x xs) hx y
          (List.mem_cons_of_mem _ (mem_sortCmp.mp hy)) hgt)]
      rw [ih (fun a ha hPa b hb => hstab a (List.mem_cons_of_mem _ ha) hPa
        b (List.mem_cons_of_mem _ hb))]
      rw [List.filter_cons]

/-! ### Properties of `positionIdx` -/

theorem positionIdx_some {α : Type _} {p : α → Bool} {l : List α} {i : Nat}
    (h : positionIdx p l = some i) :
    ∃ x, l.get? i = some x ∧ p x = true := by
  induction l generalizing i with
  | nil => simp [positionIdx] at h
  | cons x xs ih =>
      rw [positionIdx] at h
      split at h
      case isTrue hx =>
        cases h
        exact ⟨x, rfl, hx⟩
      case isFalse hx =>
        rcases Option.map_eq_some'.mp h with ⟨j, hj, rfl⟩
        obtain ⟨z, hz, hpz⟩ := ih hj
        exact ⟨z, by simpa using hz, hpz⟩

theorem positionIdx_none_iff {α : Type _} {p : α → Bool} {l : List α} :
    positionIdx p l = none ↔ ∀ x ∈ l, p x = false := by
  induction l with
  | nil => simp [positionIdx]
  | cons x xs ih =>
      rw [positionIdx]
      cases hx : p x with
      | true => simp [hx]
      | false => simp [hx, ih]

theorem positionIdx_isSome_of_mem {α : Type _} {p : α → Bool} {l : List α} {x : α}
    (hx : x ∈ l) (hp : p x = true) : ∃ i, positionIdx p l = some i := by
  cases h : positionIdx p l with
  | some i => exact ⟨i, rfl⟩
  | none =>
      rw [positionIdx_none_iff] at h
      rw [h x hx] at hp
      cases hp

/-! ### Properties of `filteredIndices` -/

theorem filteredIndices_sublist (procs : List ProcessInfo) (q : String) :
    List.Sublist (filteredIndices procs q) (List.range procs.length) := by
  unfold filteredIndices
  split
  · exact List.Sublist.refl _
  · rw [← List.enum_map_fst procs]
    exact List.Sublist.map Prod.fst (List.filter_sublist _)

theorem mem_filteredIndices {procs : List ProcessInfo} {q : String} {i : Nat} :
    i ∈ filteredIndices procs q ↔
      i < procs.length ∧
        (q = "" ∨ matchesQuery (procs.getD i default) (lowerChars q) = true) := by
  unfold filteredIndices
  split
  case isTrue hq => simp [List.mem_range, hq]
  case isFalse hq =>
    simp only [List.mem_map, List.mem_filter]
    constructor
    · rintro ⟨⟨j, x⟩, ⟨hmem, hmatch⟩, rfl⟩
      rw [List.mk_mem_enum_iff_getElem?] at hmem
      have hlt : j < procs.length := by
        by_contra hge
        rw [List.getElem?_eq_none (le_of_not_lt hge)] at hmem
        cases hmem
      have hget : procs.getD j default = x := by
        rw [List.getD_eq_getElem?_getD, hmem]
        rfl
      exact ⟨hlt, Or.inr (hget ▸ hmatch)⟩
    · rintro ⟨hlt, hq' | hmatch⟩
      · exact absurd hq' hq
      · refine ⟨(i, procs.getD i default), ⟨?_, hmatch⟩, rfl⟩
        rw [List.mk_mem_enum_iff_getElem?]
        rw [List.getD_eq_getElem?_getD, List.getElem?_eq_getElem hlt]
        rfl

/-! ### Field-effect lemmas for the App operations -/

theorem applyFilters_processes (s : App) : (applyFilters s).processes = s.processes := rfl

theorem applyFilters_filtered (s : App) :
    (applyFilters s).filtered_processes = filteredIndices s.processes s.search_query := rfl

theorem applyFilters_query (s : App) : (applyFilters s).search_query = s.search_query := rfl

theorem applyFilters_mode (s : App) : (applyFilters s).input_mode = s.input_mode := rfl

theorem applyFilters_selected_none (s : App) (h : s.table_selected = none) :
    (applyFilters s).table_selected = none := by
  unfold applyFilters
  rw [h]

theorem applyFilters_selected_some (s : App) (sel : Nat) (h : s.table_selected = some sel) :
    (applyFilters s).table_selected =
      if (filteredIndices s.processes s.search_query).isEmpty then none
      else if (filteredIndices s.processes s.search_query).length ≤ sel then
        some ((filteredIndices s.processes s.search_query).length - 1)
      else some sel := by
  unfold applyFilters
  rw [h]

theorem sortProcesses_processes (s : App) :
    (sortProcesses s).processes = sortCmp (procCmp s.sort_column s.sort_ascending) s.processes := rfl

/-! ### The inductive state invariants -/

/-- Whenever `filtered_processes` is nonempty, any `some` selection is a
position inside it. -/
def SelInv (s : App) : Prop :=
  ∀ i, s.table_selected = some i → s.filtered_processes ≠ [] →
    i < s.filtered_processes.length

/-- Every stored filtered index is in bounds of the snapshot. -/
def BoundInv (s : App) : Prop :=
  ∀ i ∈ s.filtered_processes, i < s.processes.length

/-- Outside Search mode, `filtered_processes` is exactly the filter of the
current snapshot by the current query. -/
def FilterInv (s : App) : Prop :=
  s.input_mode ≠ InputMode.Search →
    s.filtered_processes = filteredIndices s.processes s.search_query

/-- The conjunction carried through the reachability induction. -/
def AppInv (s : App) : Prop := SelInv s ∧ BoundInv s ∧ FilterInv s

theorem selInv_applyFilters (s : App) : SelInv (applyFilters s) := by
  intro i hi hne
  rw [applyFilters_filtered] at hne
  rcases hsel : s.table_selected with _ | sel
  · rw [applyFilters_selected_none s hsel] at hi
    cases hi
  · rw [applyFilters_selected_some s sel hsel] at hi
    have hemp : (filteredIndices s.processes s.search_query).isEmpty = false := by
      cases h : (filteredIndices s.processes s.search_query).isEmpty
      · rfl
      · rw [List.isEmpty_iff] at h
        exact absurd h hne
    rw [hemp] at hi
    have hpos : 0 < (filteredIndices s.processes s.search_query).length :=
      List.length_pos.mpr hne
    rw [applyFilters_filtered]
    by_cases hge : (filteredIndices s.processes s.search_query).length ≤ sel
    · rw [if_pos hge] at hi
      simp only [Bool.false_eq_true, if_false] at hi
      cases hi
      omega
    · rw [if_neg hge] at hi
      simp only [Bool.false_eq_true, if_false] at hi
      cases hi
      omega

theorem boundInv_applyFilters (s : App) : BoundInv (applyFilters s) := by
  intro i hi
  rw [applyFilters_filtered] at hi
  rw [applyFilters_processes]
  exact (mem_filteredIndices.mp hi).1

theorem filterInv_applyFilters (s : App) : FilterInv (applyFilters s) := fun _ => rfl

theorem inv_applyFilters (s : App) : AppInv (applyFilters s) :=
  ⟨selInv_applyFilters s, boundInv_applyFilters s, filterInv_applyFilters s⟩

theorem inv_toggleSort (c : SortColumn) (s : App) : AppInv (toggleSort c s) := by
  unfold toggleSort
  split <;> exact inv_applyFilters _

theorem inv_appNew (now : Nat) (procs : List ProcessInfo) : AppInv (appNew now procs) := by
  unfold appNew
  refine ⟨?_, ?_, ?_⟩
  · intro i hi hne
    cases hi
    exact List.length_pos.mpr hne
  · intro i hi
    exact boundInv_applyFilters _ i hi
  · intro hmode
    exact filterInv_applyFilters _ hmode

/-! ### Invariant preservation for the remaining operations -/

theorem next_empty (s : App) (h : s.filtered_processes = []) : next s = s := by
  unfold next
  rw [h]
  rfl

theorem next_none (s : App) (hne : s.filtered_processes ≠ [])
    (h : s.table_selected = none) :
    next s = { s with table_selected := some 0 } := by
  unfold next
  rw [if_neg (by simp [List.isEmpty_iff, hne]), h]

theorem next_some (s : App) (i : Nat) (hne : s.filtered_processes ≠ [])
    (h : s.table_selected = some i) :
    next s = { s with table_selected := some ((i + 1) % s.filtered_processes.length) } := by
  unfold next
  rw [if_neg (by simp [List.isEmpty_iff, hne]), h]

theorem previous_empty (s : App) (h : s.filtered_processes = []) : previous s = s := by
  unfold previous
  rw [h]
  rfl

theorem previous_none (s : App) (hne : s.filtered_processes ≠ [])
    (h : s.table_selected = none) :
    previous s = { s with table_selected := some 0 } := by
  unfold previous
  rw [if_neg (by simp [List.isEmpty_iff, hne]), h]

theorem previous_some (s : App) (i : Nat) (hne : s.filtered_processes ≠ [])
    (h : s.table_selected = some i) :
    previous s = { s with
      table_selected := some ((i + s.filtered_processes.length - 1) % s.filtered_processes.length) } := by
  unfold previous
  rw [if_neg (by simp [List.isEmpty_iff, hne]), h]

theorem inv_next (s : App) (hs : AppInv s) : AppInv (next s) := by
  obtain ⟨hsel, hbound, hfilter⟩ := hs
  by_cases hne : s.filtered_processes = []
  · rw [next_empty s hne]
    exact ⟨hsel, hbound, hfilter⟩
  · have hlen : 0 < s.filtered_processes.length := List.length_pos.mpr hne
    rcases h : s.table_selected with _ | i
    · rw [next_none s hne h]
      refine ⟨?_, hbound, hfilter⟩
      intro j hj _
      cases hj
      exact hlen
    · rw [next_some s i hne h]
      refine ⟨?_, hbound, hfilter⟩
      intro j hj _
      cases hj
      exact Nat.mod_lt _ hlen

theorem inv_previous (s : App) (hs : AppInv s) : AppInv (previous s) := by
  obtain ⟨hsel, hbound, hfilter⟩ := hs
  by_cases hne : s.filtered_processes = []
  · rw [previous_empty s hne]
    exact ⟨hsel, hbound, hfilter⟩
  · have hlen : 0 < s.filtered_processes.length := List.length_pos.mpr hne
    rcases h : s.table_selected with _ | i
    · rw [previous_none s hne h]
      refine ⟨?_, hbound, hfilter⟩
      intro j hj _
      cases hj
      exact hlen
    · rw [previous_some s i hne h]
      refine ⟨?_, hbound, hfilter⟩
      intro j hj _
      cases hj
      exact Nat.mod_lt _ hlen

theorem killSelectedProcess_fields (now : Nat) (kr : Except String Unit) (s : App) :
    (killSelectedProcess now kr s).processes = s.processes ∧
    (killSelectedProcess now kr s).filtered_processes = s.filtered_processes ∧
    (killSelectedProcess now kr s).table_selected = s.table_selected ∧
    (killSelectedProcess now kr s).search_query = s.search_query ∧
    (killSelectedProcess now kr s).input_mode = InputMode.Normal := by
  unfold killSelectedProcess
  cases hsp : selectedProcess s with
  | none => exact ⟨rfl, rfl, rfl, rfl, rfl⟩
  | some p =>
      cases kr with
      | ok u =>
          by_cases hpid : 0 < (parseU32 p.pid).getD 0 <;>
            simp [hpid, setMessage]
      | error e =>
          by_cases hpid : 0 < (parseU32 p.pid).getD 0 <;>
            simp [hpid, setMessage]

theorem inv_kill (now : Nat) (kr : Except String Unit) (s : App)
    (hmode : s.input_mode ≠ InputMode.Search) (hs : AppInv s) :
    AppInv (killSelectedProcess now kr s) := by
  obtain ⟨hp, hf, ht, hq, _⟩ := killSelectedProcess_fields now kr s
  obtain ⟨hsel, hbound, hfilter⟩ := hs
  refine ⟨?_, ?_, ?_⟩
  · intro i hi hne
    rw [ht] at hi
    rw [hf] at hne ⊢
    exact hsel i hi hne
  · intro i hi
    rw [hf] at hi
    rw [hp]
    exact hbound i hi
  · intro _
    rw [hf, hp, hq]
    exact hfilter hmode

theorem inv_clearMessage (now : Nat) (s : App) (hs : AppInv s) :
    AppInv (clearMessage now s) := by
  obtain ⟨hsel, hbound, hfilter⟩ := hs
  unfold clearMessage
  split
  · split
    · exact ⟨fun i hi => hsel i hi, fun i hi => hbound i hi, fun h => hfilter h⟩
    · exact ⟨hsel, hbound, hfilter⟩
  · exact ⟨hsel, hbound, hfilter⟩

theorem inv_pulledState (now : Nat) (pull : List ProcessInfo) (s : App) :
    AppInv (pulledState now pull s) := by
  obtain ⟨hsel1, hbound1, hfilter1⟩ :=
    inv_applyFilters (sortProcesses { s with processes := pull })
  exact ⟨fun i hi => hsel1 i hi, fun i hi => hbound1 i hi, fun h => hfilter1 h⟩

theorem inv_restoreSelection (pid : String) (s : App) (hs : AppInv s) :
    AppInv (restoreSelection pid s) := by
  obtain ⟨hsel, hbound, hfilter⟩ := hs
  unfold restoreSelection
  split
  case h_1 index hpos =>
    refine ⟨?_, fun i hi => hbound i hi, fun h => hfilter h⟩
    intro i hi _
    have hii : index = i := Option.some.inj hi
    subst hii
    obtain ⟨x, hx, _⟩ := positionIdx_some hpos
    exact (List.get?_eq_some.mp hx).1
  case h_2 => exact ⟨hsel, hbound, hfilter⟩

theorem inv_refreshPull (now : Nat) (pull : List ProcessInfo) (s : App)
    (hs : AppInv s) : AppInv (refreshPull now pull s) := by
  unfold refreshPull
  split
  · split
    · exact inv_restoreSelection _ _ (inv_pulledState now pull s)
    · exact inv_pulledState now pull s
  · exact hs

theorem inv_refresh (now : Nat) (pull : List ProcessInfo) (s : App)
    (hs : AppInv s) : AppInv (refresh now pull s) :=
  inv_clearMessage now _ (inv_refreshPull now pull s hs)

theorem inv_handleKey {k : KeyCode} {now : Nat} {kr : Except String Unit} {s s' : App}
    (h : handleKey k now kr s = some s') (hs : AppInv s) : AppInv s' := by
  unfold handleKey at h
  rcases hmode : s.input_mode with _ | _ | _ <;> rw [hmode] at h <;> dsimp only at h <;>
    split at h <;> (try cases h) <;>
    first
      | exact hs
      | exact inv_next s hs
      | exact inv_previous s hs
      | exact inv_toggleSort _ s
      | exact inv_applyFilters _
      | exact inv_kill now kr s (by simp [hmode]) hs
      | exact ⟨fun i hi => hs.1 i hi, fun i hi => hs.2.1 i hi,
          fun _ => hs.2.2 (by simp [hmode])⟩
      | exact ⟨fun i hi => hs.1 i hi, fun i hi => hs.2.1 i hi,
          fun hc => absurd rfl hc⟩

/-- Every reachable state satisfies all three structural invariants. -/
theorem reachable_inv {s : App} (h : Reachable s) : AppInv s := by
  induction h with
  | init now procs => exact inv_appNew now procs
  | tick now pull _ ih => exact inv_refresh now pull _ ih
  | key k now kr _ hk ih => exact inv_handleKey hk ih

/-! ### Claim C1 -/

/-- C1 counterexample: construction (`App::new`) with an empty snapshot is a
reachable state with `filtered_processes = []` yet `table_selected = some 0`
(line 59 of `src/app.rs` selects row 0 unconditionally), refuting
"selected_index is always None whenever filtered_indices is empty". -/
theorem c1_counterexample :
    Reachable (appNew 0 []) ∧
    (appNew 0 []).filtered_processes = [] ∧
    (appNew 0 []).table_selected = some 0 :=
  ⟨Reachable.init 0 [], rfl, rfl⟩

/-- C1 (amended): in every reachable state, whenever `filtered_indices` is
nonempty, a `some` selection is a position in `[0, len(filtered_indices))`.
(The original two-sided invariant fails: construction on an empty snapshot
gives `Some 0` with an empty filter, and after a refresh empties and then
repopulates the list the selection can stay `None` with a nonempty
filter.) -/
theorem c1_selected_in_range {s : App} (h : Reachable s) :
    ∀ i, s.table_selected = some i → s.filtered_processes ≠ [] →
      i < s.filtered_processes.length :=
  (reachable_inv h).1

theorem c1_selected_in_range_witness :
    0 < (appNew 0 [⟨"1", "bash", some 10⟩]).filtered_processes.length :=
  c1_selected_in_range (Reachable.init 0 [⟨"1", "bash", some 10⟩]) 0 rfl (by decide)

/-! ### Claim C10 -/

/-- C10: in every reachable state every stored filtered index is in bounds
of the snapshot, and `selected_process` returns `none` (rather than an
out-of-bounds access) whenever the selection or the filtered lookup is
absent, and the selected record otherwise. -/
theorem c10_selected_access_safe {s : App} (h : Reachable s) :
    (∀ i ∈ s.filtered_processes, i < s.processes.length) ∧
    (s.table_selected = none → selectedProcess s = none) ∧
    (∀ i, s.table_selected = some i → s.filtered_processes.get? i = none →
      selectedProcess s = none) ∧
    (∀ i j, s.table_selected = some i → s.filtered_processes.get? i = some j →
      ∃ p, s.processes.get? j = some p ∧ selectedProcess s = some p) := by
  obtain ⟨-, hbound, -⟩ := reachable_inv h
  refine ⟨hbound, ?_, ?_, ?_⟩
  · intro h0
    simp [selectedProcess, h0]
  · intro i hi hnone
    rw [List.get?_eq_getElem?] at hnone
    simp [selectedProcess, hi, hnone]
  · intro i j hi hj
    have hmem : j ∈ s.filtered_processes := List.get?_mem hj
    have hjlt : j < s.processes.length := hbound j hmem
    refine ⟨s.processes.get ⟨j, hjlt⟩, List.get?_eq_get hjlt, ?_⟩
    rw [List.get?_eq_getElem?] at hj
    simp [selectedProcess, hi, hj, List.getElem?_eq_getElem hjlt,
      List.get_eq_getElem]

theorem c10_selected_access_safe_witness :
    selectedProcess (appNew 0 []) = none :=
  (c10_selected_access_safe (Reachable.init 0 [])).2.2.1 0 rfl rfl

/-! ### Claim C2 -/

/-- Run one dispatched keypress at tick 0 with a successful terminator,
treating quit as a no-op; only used to build concrete key sequences. -/
def stepKey (k : KeyCode) (s : App) : App :=
  (handleKey k 0 (Except.ok ()) s).getD s

/-- C2 counterexample: from a one-process snapshot, press `/`, type `x`
(matching nothing), press Enter, then press `/` again.  The enter-search key
clears `search_query` without recomputing `filtered_processes`
(`src/ui.rs` lines 31-34), so the reached state has an empty query but
`filtered_processes = [] ≠ [0]`, refuting the claimed consistency after any
keypress dispatch. -/
theorem c2_counterexample :
    Reachable (stepKey (.Char '/') (stepKey .Enter (stepKey (.Char 'x')
      (stepKey (.Char '/') (appNew 0 [⟨"1", "bash", some 10⟩]))))) ∧
    (stepKey (.Char '/') (stepKey .Enter (stepKey (.Char 'x')
      (stepKey (.Char '/') (appNew 0 [⟨"1", "bash", some 10⟩]))))).search_query = "" ∧
    (stepKey (.Char '/') (stepKey .Enter (stepKey (.Char 'x')
      (stepKey (.Char '/') (appNew 0 [⟨"1", "bash", some 10⟩]))))).processes.length = 1 ∧
    (stepKey (.Char '/') (stepKey .Enter (stepKey (.Char 'x')
      (stepKey (.Char '/') (appNew 0 [⟨"1", "bash", some 10⟩]))))).filtered_processes = [] := by
  refine ⟨?_, by decide, by decide, by decide⟩
  have h0 : Reachable (appNew 0 [⟨"1", "bash", some 10⟩]) :=
    Reachable.init 0 [⟨"1", "bash", some 10⟩]
  have h1 : Reachable (stepKey (.Char '/') (appNew 0 [⟨"1", "bash", some 10⟩])) :=
    Reachable.key (.Char '/') 0 (.ok ()) h0 (by decide)
  have h2 : Reachable (stepKey (.Char 'x') (stepKey (.Char '/')
      (appNew 0 [⟨"1", "bash", some 10⟩]))) :=
    Reachable.key (.Char 'x') 0 (.ok ()) h1 (by decide)
  have h3 : Reachable (stepKey .Enter (stepKey (.Char 'x') (stepKey (.Char '/')
      (appNew 0 [⟨"1", "bash", some 10⟩])))) :=
    Reachable.key .Enter 0 (.ok ()) h2 (by decide)
  exact Reachable.key (.Char '/') 0 (.ok ()) h3 (by decide)

/-- C2 (amended): in every reachable state outside Search mode,
`filtered_processes` is a subsequence of `[0, len(snapshot))` containing
exactly the positions whose record's name or pid, case-folded, contains the
case-folded `search_query` (all positions when the query is empty).  Inside
Search mode the same holds after every Search-mode keypress, but immediately
after the enter-search key `filtered_processes` still reflects the previous
query. -/
theorem c2_filter_consistent {s : App} (h : Reachable s)
    (hmode : s.input_mode ≠ InputMode.Search) :
    List.Sublist s.filtered_processes (List.range s.processes.length) ∧
    ∀ i, i ∈ s.filtered_processes ↔ i < s.processes.length ∧
      (s.search_query = "" ∨
        matchesQuery (s.processes.getD i default) (lowerChars s.search_query) = true) := by
  have hf := (reachable_inv h).2.2 hmode
  rw [hf]
  exact ⟨filteredIndices_sublist _ _, fun i => mem_filteredIndices⟩

theorem c2_filter_consistent_witness :
    List.Sublist (appNew 0 [⟨"1", "bash", some 10⟩]).filtered_processes
      (List.range (appNew 0 [⟨"1", "bash", some 10⟩]).processes.length) :=
  (c2_filter_consistent (Reachable.init 0 [⟨"1", "bash", some 10⟩]) (by decide)).1

/-! ### Claim C7 -/

/-- C7: `apply_filters` recomputes `filtered_processes` as all snapshot
indices in order for an empty query, and otherwise as exactly the matching
indices in snapshot order; afterwards an empty filter forces the selection
to `None`, and an out-of-range previous selection is clamped to the last
valid index (an in-range one is kept). -/
theorem c7_applyFilters_spec (s : App) :
    (s.search_query = "" →
      (applyFilters s).filtered_processes = List.range s.processes.length) ∧
    (∀ i, i ∈ (applyFilters s).filtered_processes ↔
      i < s.processes.length ∧ (s.search_query = "" ∨
        matchesQuery (s.processes.getD i default) (lowerChars s.search_query) = true)) ∧
    List.Sublist (applyFilters s).filtered_processes (List.range s.processes.length) ∧
    ((applyFilters s).filtered_processes = [] → (applyFilters s).table_selected = none) ∧
    (∀ i, s.table_selected = some i → (applyFilters s).filtered_processes ≠ [] →
      ((applyFilters s).filtered_processes.length ≤ i →
        (applyFilters s).table_selected
          = some ((applyFilters s).filtered_processes.length - 1)) ∧
      (i < (applyFilters s).filtered_processes.length →
        (applyFilters s).table_selected = some i)) := by
  refine ⟨?_, ?_, ?_, ?_, ?_⟩
  · intro hq
    rw [applyFilters_filtered]
    unfold filteredIndices
    rw [if_pos hq]
  · intro i
    rw [applyFilters_filtered]
    exact mem_filteredIndices
  · rw [applyFilters_filtered]
    exact filteredIndices_sublist _ _
  · intro hemp
    rw [applyFilters_filtered] at hemp
    rcases hsel : s.table_selected with _ | sel
    · exact applyFilters_selected_none s hsel
    · rw [applyFilters_selected_some s sel hsel, hemp]
      simp
  · intro i hi hne
    rw [applyFilters_filtered] at hne ⊢
    have hemp : (filteredIndices s.processes s.search_query).isEmpty = false := by
      cases h : (filteredIndices s.processes s.search_query).isEmpty
      · rfl
      · exact absurd (List.isEmpty_iff.mp h) hne
    constructor
    · intro hge
      rw [applyFilters_selected_some s i hi, hemp]
      simp only [Bool.false_eq_true, if_false]
      rw [if_pos hge]
    · intro hlt
      rw [applyFilters_selected_some s i hi, hemp]
      simp only [Bool.false_eq_true, if_false]
      rw [if_neg (not_le.mpr hlt)]

/-- A concrete state exercising the clamp branch of `apply_filters`: the
query matches only the first record and the stored selection is out of
range. -/
def clampState : App :=
  { processes := [⟨"1", "bash", some 10⟩, ⟨"2", "chrome", some 800⟩]
    table_selected := some 5
    last_refresh := 0
    sort_column := .Memory
    sort_ascending := false
    input_mode := .Normal
    search_query := "b"
    filtered_processes := []
    message := none
    message_time := none }

theorem c7_applyFilters_spec_witness :
    (applyFilters clampState).table_selected
      = some ((applyFilters clampState).filtered_processes.length - 1) :=
  ((c7_applyFilters_spec clampState).2.2.2.2 5 rfl (by decide)).1 (by decide)

/-! ### Claim C9 -/

theorem next_iterate (s : App) (i : Nat) (hi : s.table_selected = some i)
    (hlt : i < s.filtered_processes.length) :
    ∀ k, (next^[k] s).table_selected
        = some ((i + k) % s.filtered_processes.length) ∧
      (next^[k] s).filtered_processes = s.filtered_processes := by
  have hne : s.filtered_processes ≠ [] := by
    intro h
    rw [h] at hlt
    simp at hlt
  intro k
  induction k with
  | zero =>
      refine ⟨?_, rfl⟩
      rw [Function.iterate_zero_apply, hi, Nat.add_zero, Nat.mod_eq_of_lt hlt]
  | succ k ih =>
      obtain ⟨ih1, ih2⟩ := ih
      have hne' : (next^[k] s).filtered_processes ≠ [] := by
        rw [ih2]
        exact hne
      rw [Function.iterate_succ_apply']
      refine ⟨?_, ?_⟩
      · rw [next_some (next^[k] s) ((i + k) % s.filtered_processes.length) hne' ih1]
        show some (((i + k) % s.filtered_processes.length + 1)
            % (next^[k] s).filtered_processes.length)
          = some ((i + (k + 1)) % s.filtered_processes.length)
        rw [ih2, Nat.mod_add_mod, Nat.add_assoc]
      · rw [next_some (next^[k] s) ((i + k) % s.filtered_processes.length) hne' ih1]
        show (next^[k] s).filtered_processes = s.filtered_processes
        exact ih2

/-- C9: `next`/`previous` are no-ops on an empty filter; from a `None`
selection on a nonempty filter both select row 0; and from `Some i` (in
range) composing `next` `len(filtered_indices)` times returns the selection
to `Some i`. -/
theorem c9_move_wrap (s : App) :
    (s.filtered_processes = [] → next s = s ∧ previous s = s) ∧
    (s.filtered_processes ≠ [] → s.table_selected = none →
      (next s).table_selected = some 0 ∧ (previous s).table_selected = some 0) ∧
    ∀ i, s.table_selected = some i → i < s.filtered_processes.length →
      (next^[s.filtered_processes.length] s).table_selected = some i := by
  refine ⟨fun h => ⟨next_empty s h, previous_empty s h⟩, ?_, ?_⟩
  · intro hne hnone
    rw [next_none s hne hnone, previous_none s hne hnone]
    exact ⟨rfl, rfl⟩
  · intro i hi hlt
    obtain ⟨h1, -⟩ := next_iterate s i hi hlt s.filtered_processes.length
    rw [h1, Nat.add_mod_right, Nat.mod_eq_of_lt hlt]

theorem c9_move_wrap_witness :
    (next^[(appNew 0 [⟨"1", "bash", some 10⟩, ⟨"2", "chrome", some 800⟩]).filtered_processes.length]
      (appNew 0 [⟨"1", "bash", some 10⟩, ⟨"2", "chrome", some 800⟩])).table_selected = some 0 :=
  (c9_move_wrap _).2.2 0 rfl (by decide)

/-! ### Claim C8 -/

theorem refreshPull_message (now : Nat) (pull : List ProcessInfo) (s : App) :
    (refreshPull now pull s).message = s.message ∧
    (refreshPull now pull s).message_time = s.message_time := by
  unfold refreshPull
  split
  · split
    · unfold restoreSelection
      split
      · exact ⟨rfl, rfl⟩
      · exact ⟨rfl, rfl⟩
    · exact ⟨rfl, rfl⟩
  · exact ⟨rfl, rfl⟩

theorem clearMessage_spec (now : Nat) (s : App) (t : Nat)
    (ht : s.message_time = some t) :
    clearMessage now s =
      if 3 < now - t then { s with message := none, message_time := none } else s := by
  unfold clearMessage
  rw [ht]

/-- C8: a message set at time `t` survives any refresh tick whose time is at
most `t + 2` past it, and a tick strictly more than 3 past it clears both
the message and its timestamp — in both cases regardless of whether the
snapshot pull fired on that tick. -/
theorem c8_message_expiry (s : App) (now : Nat) (pull : List ProcessInfo)
    (t : Nat) (m : String × Color)
    (hm : s.message = some m) (ht : s.message_time = some t) :
    (now - t ≤ 2 → (refresh now pull s).message = some m ∧
      (refresh now pull s).message_time = some t) ∧
    (3 < now - t → (refresh now pull s).message = none ∧
      (refresh now pull s).message_time = none) := by
  obtain ⟨hm1, ht1⟩ := refreshPull_message now pull s
  rw [hm] at hm1
  rw [ht] at ht1
  unfold refresh
  rw [clearMessage_spec now (refreshPull now pull s) t ht1]
  constructor
  · intro hage
    rw [if_neg (by omega)]
    exact ⟨hm1, ht1⟩
  · intro hage
    rw [if_pos hage]
    exact ⟨rfl, rfl⟩

/-- A concrete state with a message posted at time 10. -/
def msgState : App :=
  { processes := []
    table_selected := none
    last_refresh := 100
    sort_column := .Memory
    sort_ascending := false
    input_mode := .Normal
    search_query := ""
    filtered_processes := []
    message := some ("hello", Color.Green)
    message_time := some 10 }

theorem c8_message_expiry_witness :
    (refresh 12 [] msgState).message = some ("hello", Color.Green) ∧
    (refresh 14 [] msgState).message = none :=
  ⟨((c8_message_expiry msgState 12 [] 10 ("hello", Color.Green) rfl rfl).1 (by decide)).1,
   ((c8_message_expiry msgState 14 [] 10 ("hello", Color.Green) rfl rfl).2 (by decide)).1⟩

/-! ### Claims C3 and C4 -/

theorem kill_failure_effects (now : Nat) (e : String) (s : App) (p : ProcessInfo) (n : Nat)
    (hsel : selectedProcess s = some p)
    (hparse : parseU32 p.pid = some n) (hpos : 0 < n) :
    killSelectedProcess now (Except.error e) s =
      { s with
        message := some ("Failed to kill process: " ++ e, Color.Red)
        message_time := some now
        input_mode := InputMode.Normal } := by
  unfold killSelectedProcess
  rw [hsel]
  dsimp only
  rw [hparse]
  simp only [Option.getD_some]
  rw [if_pos hpos]
  rfl

theorem clearMessage_fields (now : Nat) (s : App) :
    (clearMessage now s).processes = s.processes ∧
    (clearMessage now s).last_refresh = s.last_refresh ∧
    (clearMessage now s).table_selected = s.table_selected ∧
    (clearMessage now s).filtered_processes = s.filtered_processes := by
  unfold clearMessage
  split
  · split
    · exact ⟨rfl, rfl, rfl, rfl⟩
    · exact ⟨rfl, rfl, rfl, rfl⟩
  · exact ⟨rfl, rfl, rfl, rfl⟩

theorem refreshPull_fired_fields (now : Nat) (pull : List ProcessInfo) (s : App)
    (hfire : REFRESH_RATE ≤ now - s.last_refresh) :
    (refreshPull now pull s).last_refresh = now ∧
    (refreshPull now pull s).processes
      = sortCmp (procCmp s.sort_column s.sort_ascending) pull := by
  unfold refreshPull
  rw [if_pos hfire]
  split
  · unfold restoreSelection
    split
    · exact ⟨rfl, rfl⟩
    · exact ⟨rfl, rfl⟩
  · exact ⟨rfl, rfl⟩

theorem kill_success_effects (now : Nat) (s : App) (p : ProcessInfo) (n : Nat)
    (hsel : selectedProcess s = some p)
    (hparse : parseU32 p.pid = some n) (hpos : 0 < n) :
    killSelectedProcess now (Except.ok ()) s =
      { s with
        message := some ("Process " ++ p.name ++ " killed", Color.Green)
        message_time := some now
        last_refresh := if REFRESH_RATE + 1 ≤ now then now - (REFRESH_RATE + 1) else now
        input_mode := InputMode.Normal } := by
  unfold killSelectedProcess
  rw [hsel]
  dsimp only
  rw [hparse]
  simp only [Option.getD_some]
  rw [if_pos hpos]
  rfl

/-- C3: when the selected record's pid parses to a positive integer and the
Process Terminator fails with description `e`, `kill_selected_process` sets
the error-severity message `"Failed to kill process: " ++ e`, leaves the
snapshot and the filtered indices untouched, and returns to Normal mode. -/
theorem c3_kill_failure (s : App) (now : Nat) (e : String) (p : ProcessInfo) (n : Nat)
    (hsel : selectedProcess s = some p)
    (hparse : parseU32 p.pid = some n) (hpos : 0 < n) :
    (killSelectedProcess now (Except.error e) s).message
        = some ("Failed to kill process: " ++ e, Color.Red) ∧
    (killSelectedProcess now (Except.error e) s).processes = s.processes ∧
    (killSelectedProcess now (Except.error e) s).filtered_processes
        = s.filtered_processes ∧
    (killSelectedProcess now (Except.error e) s).input_mode = InputMode.Normal := by
  rw [kill_failure_effects now e s p n hsel hparse hpos]
  exact ⟨rfl, rfl, rfl, rfl⟩

theorem c3_kill_failure_witness :
    (killSelectedProcess 7 (Except.error "Permission denied")
        (appNew 0 [⟨"1", "bash", some 10⟩])).message
      = some ("Failed to kill process: Permission denied", Color.Red) :=
  (c3_kill_failure (appNew 0 [⟨"1", "bash", some 10⟩]) 7 "Permission denied"
    ⟨"1", "bash", some 10⟩ 1 (by decide) (by decide) (by decide)).1

/-- C4: when the selected record's pid parses to a positive integer and the
Process Terminator succeeds, `kill_selected_process` sets an informational
(green) message, does not touch the snapshot, and moves `last_refresh` back
by `REFRESH_RATE + 1` (more than the refresh interval), so any later
`refresh` tick satisfies the elapsed test and performs the snapshot pull.
(`Instant::now().checked_sub` is total here because `now` is at least
`REFRESH_RATE + 1` ticks after the clock origin.) -/
theorem c4_kill_success (s : App) (now now2 : Nat) (pull : List ProcessInfo)
    (p : ProcessInfo) (n : Nat)
    (hsel : selectedProcess s = some p)
    (hparse : parseU32 p.pid = some n) (hpos : 0 < n)
    (hnow : REFRESH_RATE + 1 ≤ now) (hmono : now ≤ now2) :
    (killSelectedProcess now (Except.ok ()) s).message
        = some ("Process " ++ p.name ++ " killed", Color.Green) ∧
    (killSelectedProcess now (Except.ok ()) s).processes = s.processes ∧
    (killSelectedProcess now (Except.ok ()) s).last_refresh
        = now - (REFRESH_RATE + 1) ∧
    (killSelectedProcess now (Except.ok ()) s).last_refresh + REFRESH_RATE < now ∧
    REFRESH_RATE ≤ now2 - (killSelectedProcess now (Except.ok ()) s).last_refresh ∧
    (refresh now2 pull (killSelectedProcess now (Except.ok ()) s)).last_refresh = now2 ∧
    (refresh now2 pull (killSelectedProcess now (Except.ok ()) s)).processes
        = sortCmp (procCmp s.sort_column s.sort_ascending) pull := by
  have heff := kill_success_effects now s p n hsel hparse hpos
  set K := killSelectedProcess now (Except.ok ()) s with hK
  have hlr : K.last_refresh = now - (REFRESH_RATE + 1) := by
    rw [heff]
    dsimp only
    rw [if_pos hnow]
  have hproc : K.processes = s.processes := by rw [heff]
  have hmsg : K.message = some ("Process " ++ p.name ++ " killed", Color.Green) := by
    rw [heff]
  have hcol : K.sort_column = s.sort_column := by rw [heff]
  have hasc : K.sort_ascending = s.sort_ascending := by rw [heff]
  have hrr : REFRESH_RATE = 2 := rfl
  have hfire : REFRESH_RATE ≤ now2 - K.last_refresh := by
    rw [hlr]
    omega
  obtain ⟨hrl, hrp⟩ := refreshPull_fired_fields now2 pull K hfire
  have hcf := clearMessage_fields now2 (refreshPull now2 pull K)
  refine ⟨hmsg, hproc, hlr, ?_, hfire, ?_, ?_⟩
  · rw [hlr]
    omega
  · show (clearMessage now2 (refreshPull now2 pull K)).last_refresh = now2
    rw [hcf.2.1, hrl]
  · show (clearMessage now2 (refreshPull now2 pull K)).processes
      = sortCmp (procCmp s.sort_column s.sort_ascending) pull
    rw [hcf.1, hrp, hcol, hasc]

theorem c4_kill_success_witness :
    (killSelectedProcess 10 (Except.ok ()) (appNew 0 [⟨"1", "bash", some 10⟩])).last_refresh
        + REFRESH_RATE < 10 :=
  (c4_kill_success (appNew 0 [⟨"1", "bash", some 10⟩]) 10 10 [] ⟨"1", "bash", some 10⟩ 1
    (by decide) (by decide) (by decide) (by decide) (by decide)).2.2.2.1

/-! ### Claim C6 -/

theorem restoreSelection_cases (pid : String) (s : App) :
    (restoreSelection pid s).processes = s.processes ∧
    (restoreSelection pid s).filtered_processes = s.filtered_processes ∧
    ((∃ i ∈ s.filtered_processes, (s.processes.getD i default).pid = pid) →
      ∃ pos j, (restoreSelection pid s).table_selected = some pos ∧
        s.filtered_processes.get? pos = some j ∧
        (s.processes.getD j default).pid = pid) ∧
    ((¬ ∃ i ∈ s.filtered_processes, (s.processes.getD i default).pid = pid) →
      (restoreSelection pid s).table_selected = s.table_selected) := by
  unfold restoreSelection
  cases hpos : positionIdx (fun i => (s.processes.getD i default).pid = pid)
      s.filtered_processes with
  | none =>
      refine ⟨rfl, rfl, ?_, fun _ => rfl⟩
      rintro ⟨i, hi, hpid⟩
      rw [positionIdx_none_iff] at hpos
      have hfalse := hpos i hi
      rw [decide_eq_false_iff_not] at hfalse
      exact absurd hpid hfalse
  | some index =>
      obtain ⟨x, hx, hpx⟩ := positionIdx_some hpos
      rw [decide_eq_true_eq] at hpx
      refine ⟨rfl, rfl, fun _ => ⟨index, x, rfl, hx, hpx⟩, ?_⟩
      intro hnone
      exact (hnone ⟨x, List.get?_mem hx, hpx⟩).elim

/-- C6: after a firing refresh with a selected record, if the captured
record's pid occurs among the records of the new `filtered_processes`, the
new selection points at a filtered position whose record carries that pid
(the first such); otherwise the selection is exactly what `apply_filters`'s
clamping produced on the new snapshot. -/
theorem c6_refresh_restore (s : App) (now : Nat) (pull : List ProcessInfo)
    (p : ProcessInfo)
    (hfire : REFRESH_RATE ≤ now - s.last_refresh)
    (hsel : selectedProcess s = some p) :
    ((∃ i ∈ (refresh now pull s).filtered_processes,
        ((refresh now pull s).processes.getD i default).pid = p.pid) →
      ∃ pos j, (refresh now pull s).table_selected = some pos ∧
        (refresh now pull s).filtered_processes.get? pos = some j ∧
        ((refresh now pull s).processes.getD j default).pid = p.pid) ∧
    ((¬ ∃ i ∈ (refresh now pull s).filtered_processes,
        ((refresh now pull s).processes.getD i default).pid = p.pid) →
      (refresh now pull s).table_selected
        = (applyFilters (sortProcesses { s with processes := pull })).table_selected) := by
  have hrp : refreshPull now pull s = restoreSelection p.pid (pulledState now pull s) := by
    unfold refreshPull
    rw [if_pos hfire, hsel]
    rfl
  obtain ⟨hcp, -, hct, hcfp⟩ := clearMessage_fields now (refreshPull now pull s)
  have e1 : (refresh now pull s).processes
      = (restoreSelection p.pid (pulledState now pull s)).processes := by
    show (clearMessage now (refreshPull now pull s)).processes = _
    rw [hcp, hrp]
  have e2 : (refresh now pull s).filtered_processes
      = (restoreSelection p.pid (pulledState now pull s)).filtered_processes := by
    show (clearMessage now (refreshPull now pull s)).filtered_processes = _
    rw [hcfp, hrp]
  have e3 : (refresh now pull s).table_selected
      = (restoreSelection p.pid (pulledState now pull s)).table_selected := by
    show (clearMessage now (refreshPull now pull s)).table_selected = _
    rw [hct, hrp]
  rw [e1, e2, e3]
  obtain ⟨rp, rf, rsome, rnone⟩ := restoreSelection_cases p.pid (pulledState now pull s)
  rw [rp, rf]
  refine ⟨fun hex => rsome hex, fun hnex => ?_⟩
  rw [rnone hnex]
  rfl

theorem c6_refresh_restore_witness :
    ∃ pos j,
      (refresh 5 [⟨"1", "vim", some 7⟩]
          (appNew 0 [⟨"1", "bash", some 10⟩])).table_selected = some pos ∧
      (refresh 5 [⟨"1", "vim", some 7⟩]
          (appNew 0 [⟨"1", "bash", some 10⟩])).filtered_processes.get? pos = some j ∧
      ((refresh 5 [⟨"1", "vim", some 7⟩]
          (appNew 0 [⟨"1", "bash", some 10⟩])).processes.getD j default).pid = "1" :=
  (c6_refresh_restore (appNew 0 [⟨"1", "bash", some 10⟩]) 5 [⟨"1", "vim", some 7⟩]
    ⟨"1", "bash", some 10⟩ (by decide) (by decide)).1 (by decide)

/-! ### Claim C5 -/

theorem toggleSort_sort_column (c : SortColumn) (s : App) :
    (toggleSort c s).sort_column = c := by
  unfold toggleSort
  by_cases h : s.sort_column = c
  · rw [if_pos h]
    exact h
  · rw [if_neg h]
    rfl

theorem toggleSort_sort_ascending (c : SortColumn) (s : App) :
    (toggleSort c s).sort_ascending
      = (if s.sort_column = c then !s.sort_ascending else true) := by
  unfold toggleSort
  by_cases h : s.sort_column = c
  · rw [if_pos h, if_pos h]
    rfl
  · rw [if_neg h, if_neg h]
    rfl

theorem toggleSort_processes (c : SortColumn) (s : App) :
    (toggleSort c s).processes
      = sortCmp (procCmp c (if s.sort_column = c then !s.sort_ascending else true))
          s.processes := by
  unfold toggleSort
  by_cases h : s.sort_column = c
  · rw [if_pos h, if_pos h]
    show sortCmp (procCmp s.sort_column !s.sort_ascending) s.processes = _
    rw [h]
  · rw [if_neg h, if_neg h]
    rfl

/-- C5: `toggle_sort(column)` flips `sort_ascending` on the current column
and otherwise selects the column ascending; immediately afterwards the
snapshot is a permutation of the old one, sorted by the resulting
`(sort_column, sort_ascending)` comparator, stably (the subsequence of
records comparing equal to any fixed record is unchanged); and from a
different column two consecutive calls give the ascending then the
descending order.  `hmem` excludes NaN memory values, which the snapshot
provider (integer bytes divided by 1024²) never produces. -/
theorem c5_toggleSort_spec (s : App) (c : SortColumn)
    (hmem : ∀ p ∈ s.processes, p.memory_mb ≠ none) :
    ((toggleSort c s).sort_column = c ∧
      (toggleSort c s).sort_ascending
        = (if s.sort_column = c then !s.sort_ascending else true)) ∧
    List.Perm (toggleSort c s).processes s.processes ∧
    (toggleSort c s).processes.Pairwise
      (fun a b => procCmp c (toggleSort c s).sort_ascending a b ≠ Ordering.gt) ∧
    (∀ x ∈ s.processes,
      (toggleSort c s).processes.filter
          (fun a => procCmp c (toggleSort c s).sort_ascending a x = Ordering.eq)
        = s.processes.filter
          (fun a => procCmp c (toggleSort c s).sort_ascending a x = Ordering.eq)) ∧
    (s.sort_column ≠ c →
      (toggleSort c s).sort_ascending = true ∧
      (toggleSort c (toggleSort c s)).sort_column = c ∧
      (toggleSort c (toggleSort c s)).sort_ascending = false ∧
      (toggleSort c (toggleSort c s)).processes.Pairwise
        (fun a b => procCmp c false a b ≠ Ordering.gt)) := by
  have hcol := toggleSort_sort_column c s
  have hasc := toggleSort_sort_ascending c s
  have hproc := toggleSort_processes c s
  refine ⟨⟨hcol, hasc⟩, ?_, ?_, ?_, ?_⟩
  · rw [hproc]
    exact sortCmp_perm _ _
  · rw [hproc, hasc]
    apply sortCmp_pairwise
    · exact fun a _ b _ h => procCmp_asymm h
    · intro a ha b hb x hx h1 h2
      exact procCmp_trans (fun _ => ⟨hmem a ha, hmem b hb, hmem x hx⟩) h1 h2
  · intro x hx
    rw [hproc, hasc]
    apply sortCmp_filter
    intro a ha hPa b hb hgt
    rw [decide_eq_true_eq] at hPa
    rw [decide_eq_false_iff_not]
    exact procCmp_stab (fun _ => ⟨hmem a ha, hmem b hb, hmem x hx⟩) hPa hgt
  · intro hne
    have h1 : (toggleSort c s).sort_ascending = true := by
      rw [hasc, if_neg hne]
    have hmem' : ∀ p ∈ (toggleSort c s).processes, p.memory_mb ≠ none := by
      intro p hp
      have hperm : List.Perm (toggleSort c s).processes s.processes := by
        rw [hproc]
        exact sortCmp_perm _ _
      exact hmem p (hperm.mem_iff.mp hp)
    have hproc2 := toggleSort_processes c (toggleSort c s)
    rw [hcol, if_pos rfl, h1] at hproc2
    refine ⟨h1, toggleSort_sort_column c _, ?_, ?_⟩
    · rw [toggleSort_sort_ascending c (toggleSort c s), hcol, if_pos rfl, h1]
      rfl
    · rw [hproc2]
      apply sortCmp_pairwise
      · exact fun a _ b _ h => procCmp_asymm h
      · intro a ha b hb x hx h1' h2'
        exact procCmp_trans
          (fun _ => ⟨hmem' a ha, hmem' b hb, hmem' x hx⟩) h1' h2'

theorem c5_toggleSort_spec_witness :
    (toggleSort .Pid (appNew 0 [⟨"2", "b", some 5⟩, ⟨"1", "a", some 7⟩])).sort_ascending
      = true :=
  ((c5_toggleSort_spec (appNew 0 [⟨"2", "b", some 5⟩, ⟨"1", "a", some 7⟩]) .Pid
    (by decide)).2.2.2.2 (by decide)).1
